import Mathlib

/-
Verification of the ulsys L-system library.

The Python sources are shallowly embedded: symbol sequences are `List α`,
Python dicts are association lists looked up by decidable equality,
real-valued probabilities are rationals, and the mutable turtle objects
become explicit state records.  Fallible operations return `Except`/`Option`.
-/

namespace Ulsys

/-- Lookup in a Python-dict-like association list; models `x in d` / `d[x]`
for a dict with (unique) keys compared by equality. -/
def dictLookup {α β : Type} [DecidableEq α] : List (α × β) → α → Option β
  | [], _ => none
  | (k, v) :: rest, x => if k = x then some v else dictLookup rest x

/-- One generation of the deterministic rewrite: the body of the `for x in axiom`
loop in `evaluateSystem` (src/ulsys/standard/standard.py, lines 112-117):
`result += rules[x]` when `x in rules`, else `result.append(x)`. -/
def rewriteStep {α : Type} [DecidableEq α] (rules : List (α × List α)) : List α → List α
  | [] => []
  | x :: xs =>
    (match dictLookup rules x with
     | some abc => abc
     | none => [x]) ++ rewriteStep rules xs

/-- The recursion of `evaluateSystem` (standard.py lines 110-118) with the
number of remaining generations as a natural number: each call rewrites once
and recurses with one generation fewer. -/
def evalRec {α : Type} [DecidableEq α] (rules : List (α × List α)) : Nat → List α → List α
  | 0, ax => ax
  | k + 1, ax => evalRec rules k (rewriteStep rules ax)

/-- `evaluateSystem(axiom, rules, n)` from src/ulsys/standard/standard.py for a
dict-shaped `rules` argument.  The Python guard `if n < 1: return axiom` is
checked on the integer `n`; for `n ≥ 1` exactly `n` generations are applied
(the Python recursion decrements `n` until the guard fires). -/
def evaluateSystem {α : Type} [DecidableEq α] (ax : List α) (rules : List (α × List α)) (n : Int) : List α :=
  if n < 1 then ax else evalRec rules n.toNat ax

end Ulsys

namespace Ulsys

/-- C2: the deterministic engine satisfies end-to-end scenario 1:
`evaluateSystem("0", {"1": list("11"), "0": list("1[0]0")}, 2)` returns exactly
`['1','1','[','1','[','0',']','0',']','1','[','0',']','0']`. -/
theorem c2_deterministic_scenario1 :
    evaluateSystem ['0']
      [('1', ['1', '1']), ('0', ['1', '[', '0', ']', '0'])] 2 =
      ['1', '1', '[', '1', '[', '0', ']', '0', ']', '1', '[', '0', ']', '0'] := by
  decide

/-- C4: the deterministic `evaluateSystem` with `n = 0` returns the axiom
unchanged, and every negative `n` is treated identically to `n = 0`:
no generation is applied. -/
theorem c4_zero_and_negative_generations {α : Type} [DecidableEq α]
    (ax : List α) (rules : List (α × List α)) (n : Int) :
    evaluateSystem ax rules 0 = ax ∧ (n ≤ 0 → evaluateSystem ax rules n = ax) := by
  constructor
  · simp [evaluateSystem]
  · intro hn
    have h1 : n < 1 := by omega
    simp [evaluateSystem, h1]

/-- C4 witness at a concrete input: a negative generation count on a concrete
system is the identity. -/
theorem c4_zero_and_negative_generations_witness :
    evaluateSystem ['0'] [('0', ['1', '1'])] 0 = ['0'] ∧
      evaluateSystem ['0'] [('0', ['1', '1'])] (-3) = ['0'] := by
  refine ⟨(c4_zero_and_negative_generations ['0'] [('0', ['1', '1'])] (-3)).1, ?_⟩
  exact (c4_zero_and_negative_generations ['0'] [('0', ['1', '1'])] (-3)).2 (by decide)

/-- Helper for C5: a rewrite step over symbols none of which have a rule is the
identity. -/
theorem rewriteStep_of_no_rule {α : Type} [DecidableEq α]
    (rules : List (α × List α)) (ax : List α)
    (h : ∀ s ∈ ax, dictLookup rules s = none) : rewriteStep rules ax = ax := by
  induction ax with
  | nil => rfl
  | cons x xs ih =>
    have hx : dictLookup rules x = none := h x (List.mem_cons_self x xs)
    have hxs : ∀ s ∈ xs, dictLookup rules s = none := fun s hs => h s (List.mem_cons_of_mem x hs)
    simp [rewriteStep, hx, ih hxs]

/-- Helper for C5: the bounded recursion preserves an axiom whose symbols all
lack rules. -/
theorem evalRec_of_no_rule {α : Type} [DecidableEq α]
    (rules : List (α × List α)) (k : Nat) (ax : List α)
    (h : ∀ s ∈ ax, dictLookup rules s = none) : evalRec rules k ax = ax := by
  induction k with
  | zero => rfl
  | succ k ih =>
    have hstep : rewriteStep rules ax = ax := rewriteStep_of_no_rule rules ax h
    simp [evalRec, hstep, ih]

/-- C5: if no rule's left-hand symbol occurs anywhere during the expansion of
the axiom (it suffices that no symbol of the axiom has a rule, since then every
intermediate sequence is the axiom itself), `evaluateSystem` returns the axiom
element for element, for every number of generations: unmapped symbols pass
through unchanged and never cause an error. -/
theorem c5_passthrough {α : Type} [DecidableEq α]
    (ax : List α) (rules : List (α × List α)) (n : Int)
    (h : ∀ s ∈ ax, dictLookup rules s = none) :
    evaluateSystem ax rules n = ax := by
  unfold evaluateSystem
  split
  · rfl
  · exact evalRec_of_no_rule rules n.toNat ax h

/-- C5 witness at a concrete input: a rule table whose only key `'X'` never
occurs leaves the axiom `"ab"` untouched after 3 generations. -/
theorem c5_passthrough_witness :
    evaluateSystem ['a', 'b'] [('X', ['a'])] 3 = ['a', 'b'] :=
  c5_passthrough ['a', 'b'] [('X', ['a'])] 3 (by decide)

/-
The stochastic engine, src/ulsys/stochastic/stochastic.py.  Weights and random
draws (Python floats) are embedded as exact rationals.  The pluggable rng, a
stateful zero-argument closure in Python, is embedded as the stream of its
successive return values (`rng k` is the value of the k-th call), with the
call counter threaded explicitly.
-/

/-- Insertion of a rule into a weight-ascending list, placing it after all
rules of weight less than or equal to its own.  Folded left over the input
this reproduces the stable ascending sort performed by Python's
`sorted(rules, key=lambda x: x[0])` (stochastic.py line 169). -/
def insertByWeight {α : Type} (r : ℚ × List α) : List (ℚ × List α) → List (ℚ × List α)
  | [] => [r]
  | x :: xs => if r.1 < x.1 then r :: x :: xs else x :: insertByWeight r xs

/-- `sorted(s_to_rules[S], key=lambda x: x[0])` (stochastic.py line 169):
stable sort, ascending by weight. -/
def sortByWeight {α : Type} (l : List (ℚ × List α)) : List (ℚ × List α) :=
  l.foldl (fun acc r => insertByWeight r acc) []

/-- `itertools.accumulate` (stochastic.py line 175), with an explicit running
total: `accumulateFrom [w1, w2, ...] t = [t+w1, t+w1+w2, ...]`. -/
def accumulateFrom : List ℚ → ℚ → List ℚ
  | [], _ => []
  | x :: xs, run => (run + x) :: accumulateFrom xs (run + x)

/-- The selection loop of `evaluateSystem.impl` (stochastic.py lines 178-185):
walk the (rule, cumulative boundary) pairs carrying the previous boundary
`last_w` (initially 0); select the first rule with `p >= last_w and p <= w`,
else advance `last_w` to `w`.  Returns `none` when the loop falls through with
no selection (Python then fails destructuring `None`). -/
def selectLoop {α : Type} (p : ℚ) : List ((ℚ × List α) × ℚ) → ℚ → Option (ℚ × List α)
  | [], _ => none
  | (rule, w) :: rest, last_w =>
    if last_w ≤ p ∧ p ≤ w then some rule else selectLoop p rest w

/-- Rule selection for one occurrence of a symbol that has rules
(stochastic.py lines 167-185): sort the rules by weight, sum the weights,
scale each by the total, accumulate cumulative boundaries, then run the
selection loop on the draw `p`. -/
def selectRule {α : Type} (rs : List (ℚ × List α)) (p : ℚ) : Option (ℚ × List α) :=
  let current_rules := sortByWeight rs
  let prob_total := (current_rules.map Prod.fst).sum
  let weights := current_rules.map (fun r => r.1 / prob_total)
  let weights_acc := accumulateFrom weights 0
  selectLoop p (current_rules.zip weights_acc) 0

/-- One generation of the stochastic rewrite (the `for S in curr_axiom` loop of
stochastic.py, lines 163-190), threading the index of the next rng draw.  A
symbol with rules consumes exactly one draw; a symbol without rules passes
through and consumes none.  Returns `none` if rule selection fell through. -/
def stochasticStep {α : Type} [DecidableEq α] (s_to_rules : List (α × List (ℚ × List α)))
    (rng : Nat → ℚ) : List α → Nat → Option (List α × Nat)
  | [], k => some ([], k)
  | S :: rest, k =>
    match dictLookup s_to_rules S with
    | some rs =>
      match selectRule rs (rng k) with
      | some rule => (stochasticStep s_to_rules rng rest (k + 1)).map
          (fun pr => (rule.2 ++ pr.1, pr.2))
      | none => none
    | none => (stochasticStep s_to_rules rng rest k).map (fun pr => (S :: pr.1, pr.2))

/-- The recursion `impl` of stochastic.py (lines 160-191), with the number of
remaining generations as a natural number and the rng call counter threaded. -/
def stochasticRec {α : Type} [DecidableEq α] (s_to_rules : List (α × List (ℚ × List α)))
    (rng : Nat → ℚ) : Nat → List α → Nat → Option (List α × Nat)
  | 0, ax, k => some (ax, k)
  | g + 1, ax, k =>
    (stochasticStep s_to_rules rng ax k).bind
      (fun pr => stochasticRec s_to_rules rng g pr.1 pr.2)

/-- `evaluateSystem(axiom, rules, n, rng)` from src/ulsys/stochastic/stochastic.py
for a dict-shaped `rules` argument, with the rng given as the stream of its
successive return values. -/
def evaluateSystemStochastic {α : Type} [DecidableEq α] (ax : List α)
    (s_to_rules : List (α × List (ℚ × List α))) (n : Int) (rng : Nat → ℚ) :
    Option (List α) :=
  if n < 1 then some ax
  else (stochasticRec s_to_rules rng n.toNat ax 0).map Prod.fst

/-- C3: the stochastic engine satisfies end-to-end scenario 2: evaluating
`"AA"` under `{"A": [(0.5, "BA"), (0.5, "C")]}` for 2 generations with a
constant rng returning 0.5 yields exactly `['B','B','A','B','B','A']` — every
occurrence of `"A"` resolves to `"BA"` under the inclusive boundary rule. -/
theorem c3_stochastic_scenario2 :
    evaluateSystemStochastic ['A', 'A']
      [('A', [((1 : ℚ)/2, ['B', 'A']), ((1 : ℚ)/2, ['C'])])] 2 (fun _ => (1 : ℚ)/2) =
      some ['B', 'B', 'A', 'B', 'B', 'A'] := by
  norm_num [evaluateSystemStochastic, stochasticRec, stochasticStep, selectRule,
    sortByWeight, insertByWeight, accumulateFrom, selectLoop, dictLookup,
    show ('A' = 'B') = False by simp, show ('A' = 'C') = False by simp]

/-- Modelled from the spec's words (for comparison with the selection loop of
the code): the first rule, in the given order, whose cumulative boundary is
greater than or equal to the draw `p`. -/
def firstBoundaryGe {α : Type} (p : ℚ) : List ((ℚ × List α) × ℚ) → Option (ℚ × List α)
  | [] => none
  | (rule, w) :: rest => if p ≤ w then some rule else firstBoundaryGe p rest

/-- The selection loop agrees with taking the first rule whose cumulative
boundary is ≥ p, whenever the carried lower bound `last_w` is ≤ p (as it is
initially, since `last_w = 0 ≤ p`). -/
theorem selectLoop_eq_firstBoundaryGe {α : Type} (p : ℚ) (pairs : List ((ℚ × List α) × ℚ)) :
    ∀ last_w, last_w ≤ p → selectLoop p pairs last_w = firstBoundaryGe p pairs := by
  induction pairs with
  | nil => intro last_w _; rfl
  | cons hd rest ih =>
    obtain ⟨rule, w⟩ := hd
    intro last_w hlw
    by_cases hpw : p ≤ w
    · simp [selectLoop, firstBoundaryGe, hpw, hlw]
    · have hwp : w ≤ p := (not_le.mp hpw).le
      simp [selectLoop, firstBoundaryGe, hpw, ih w hwp]

/-- Membership after insertion by weight. -/
theorem mem_insertByWeight {α : Type} {r y : ℚ × List α} {l : List (ℚ × List α)}
    (h : y ∈ insertByWeight r l) : y = r ∨ y ∈ l := by
  induction l with
  | nil =>
    simp [insertByWeight] at h
    exact Or.inl h
  | cons x xs ih =>
    by_cases hlt : r.1 < x.1
    · rw [insertByWeight, if_pos hlt] at h
      rcases List.mem_cons.mp h with h2 | h2
      · exact Or.inl h2
      · exact Or.inr h2
    · rw [insertByWeight, if_neg hlt] at h
      rcases List.mem_cons.mp h with h2 | h2
      · exact Or.inr (h2 ▸ List.mem_cons_self x xs)
      · rcases ih h2 with h3 | h3
        · exact Or.inl h3
        · exact Or.inr (List.mem_cons_of_mem x h3)

/-- Insertion by weight preserves weight-ascending order. -/
theorem pairwise_insertByWeight {α : Type} (r : ℚ × List α) (l : List (ℚ × List α))
    (h : List.Pairwise (fun a b => a.1 ≤ b.1) l) :
    List.Pairwise (fun a b => a.1 ≤ b.1) (insertByWeight r l) := by
  induction l with
  | nil => simp [insertByWeight]
  | cons x xs ih =>
    rw [List.pairwise_cons] at h
    obtain ⟨hx, hxs⟩ := h
    by_cases hlt : r.1 < x.1
    · rw [insertByWeight, if_pos hlt]
      refine List.Pairwise.cons ?_ (List.Pairwise.cons hx hxs)
      intro b hb
      rcases List.mem_cons.mp hb with rfl | hbxs
      · exact hlt.le
      · exact le_trans hlt.le (hx b hbxs)
    · rw [insertByWeight, if_neg hlt]
      refine List.Pairwise.cons ?_ (ih hxs)
      intro b hb
      rcases mem_insertByWeight hb with rfl | hbxs
      · exact le_of_not_lt hlt
      · exact hx b hbxs

/-- The sorting pass of the stochastic engine really sorts: its output is
weight-ascending. -/
theorem pairwise_sortByWeight {α : Type} (l : List (ℚ × List α)) :
    List.Pairwise (fun a b => a.1 ≤ b.1) (sortByWeight l) := by
  have main : ∀ (l acc : List (ℚ × List α)), List.Pairwise (fun a b => a.1 ≤ b.1) acc →
      List.Pairwise (fun a b => a.1 ≤ b.1)
        (l.foldl (fun acc r => insertByWeight r acc) acc) := by
    intro l
    induction l with
    | nil => intro acc h; exact h
    | cons x xs ih => intro acc h; exact ih _ (pairwise_insertByWeight x acc h)
  exact main l [] List.Pairwise.nil

/-- Insertion preserves the multiset of weights, hence their sum. -/
theorem sum_insertByWeight {α : Type} (r : ℚ × List α) (l : List (ℚ × List α)) :
    ((insertByWeight r l).map Prod.fst).sum = r.1 + (l.map Prod.fst).sum := by
  induction l with
  | nil => simp [insertByWeight]
  | cons x xs ih =>
    by_cases hlt : r.1 < x.1
    · rw [insertByWeight, if_pos hlt]
      simp
    · rw [insertByWeight, if_neg hlt]
      simp [ih]
      ring

/-- Sorting preserves the total weight. -/
theorem sum_sortByWeight {α : Type} (l : List (ℚ × List α)) :
    ((sortByWeight l).map Prod.fst).sum = (l.map Prod.fst).sum := by
  have main : ∀ (l acc : List (ℚ × List α)),
      (((l.foldl (fun acc r => insertByWeight r acc) acc)).map Prod.fst).sum =
        (acc.map Prod.fst).sum + (l.map Prod.fst).sum := by
    intro l
    induction l with
    | nil => intro acc; simp
    | cons x xs ih =>
      intro acc
      rw [List.foldl_cons, ih (insertByWeight x acc), sum_insertByWeight]
      simp
      ring
  simpa using main l []

/-- Insertion adds one element. -/
theorem length_insertByWeight {α : Type} (r : ℚ × List α) (l : List (ℚ × List α)) :
    (insertByWeight r l).length = l.length + 1 := by
  induction l with
  | nil => rfl
  | cons x xs ih =>
    by_cases hlt : r.1 < x.1
    · rw [insertByWeight, if_pos hlt]; rfl
    · rw [insertByWeight, if_neg hlt]
      simp [ih]

/-- Sorting preserves length. -/
theorem length_sortByWeight {α : Type} (l : List (ℚ × List α)) :
    (sortByWeight l).length = l.length := by
  have main : ∀ (l acc : List (ℚ × List α)),
      (l.foldl (fun acc r => insertByWeight r acc) acc).length = acc.length + l.length := by
    intro l
    induction l with
    | nil => intro acc; simp
    | cons x xs ih =>
      intro acc
      rw [List.foldl_cons, ih (insertByWeight x acc), length_insertByWeight]
      simp only [List.length_cons]
      omega
  simpa using main l []

/-- Scaling every weight by `1/t` scales the sum. -/
theorem sum_map_div {α : Type} (l : List (ℚ × List α)) (t : ℚ) :
    (l.map (fun r => r.1 / t)).sum = (l.map Prod.fst).sum / t := by
  induction l with
  | nil => simp
  | cons x xs ih => simp [ih, add_div]

/-- The last cumulative boundary is the running total plus the sum of the
remaining weights. -/
theorem accumulateFrom_getLast {ws : List ℚ} (hne : ws ≠ []) (init : ℚ) :
    (accumulateFrom ws init).getLast? = some (init + ws.sum) := by
  induction ws generalizing init with
  | nil => exact absurd rfl hne
  | cons w wrest ih =>
    cases wrest with
    | nil => simp [accumulateFrom]
    | cons w2 wrest2 =>
      have h := ih (by simp) (init + w)
      rw [accumulateFrom] at h
      rw [accumulateFrom, accumulateFrom, List.getLast?_cons_cons, h]
      congr 1
      simp
      ring

/-- If the draw is at most the final cumulative boundary, the first-boundary-≥-p
search over the zipped rules and boundaries finds a rule. -/
theorem firstBoundaryGe_isSome {α : Type} :
    ∀ (rules : List (ℚ × List α)) (ws : List ℚ) (init p : ℚ),
      rules.length = ws.length → rules ≠ [] → p ≤ init + ws.sum →
      (firstBoundaryGe p (rules.zip (accumulateFrom ws init))).isSome = true := by
  intro rules
  induction rules with
  | nil => intro ws init p _ hne _; exact absurd rfl hne
  | cons r rest ih =>
    intro ws init p hlen hne hp
    cases ws with
    | nil => simp at hlen
    | cons w wrest =>
      by_cases hpw : p ≤ init + w
      · simp [accumulateFrom, firstBoundaryGe, hpw]
      · cases rest with
        | nil =>
          cases wrest with
          | nil =>
            exfalso
            apply hpw
            simpa using hp
          | cons _ _ => simp at hlen
        | cons r2 rest2 =>
          have hrec := ih wrest (init + w) p (by simpa using hlen) (by simp)
            (by rw [List.sum_cons] at hp; linarith)
          simpa [accumulateFrom, firstBoundaryGe, hpw] using hrec

/-- The selection performed by the code is first-boundary-≥-p selection over the
sorted, normalized, accumulated rule set, for any nonnegative draw. -/
theorem selectRule_eq_firstBoundaryGe {α : Type} (rs : List (ℚ × List α)) (p : ℚ)
    (hp : 0 ≤ p) :
    selectRule rs p = firstBoundaryGe p ((sortByWeight rs).zip
      (accumulateFrom ((sortByWeight rs).map
        (fun r => r.1 / ((sortByWeight rs).map Prod.fst).sum)) 0)) := by
  unfold selectRule
  exact selectLoop_eq_firstBoundaryGe p _ 0 hp

/-- C1: in the stochastic engine, for every occurrence of a symbol that has
rules: the rules are sorted ascending by weight; the rule selected for a draw
`p ≥ 0` is the first, in that sorted order, whose cumulative boundary (running
sum of the weights scaled by the total) is ≥ p, with inclusive comparison at
both boundaries; and each such occurrence takes one fresh draw — the head
occurrence uses draw `rng k` and the rest of the sequence continues with draw
index `k + 1`, so distinct occurrences of the same symbol draw independently. -/
theorem c1_stochastic_selection {α : Type} [DecidableEq α]
    (s_to_rules : List (α × List (ℚ × List α))) (rng : Nat → ℚ)
    (S : α) (rs : List (ℚ × List α)) (rest : List α) (k : Nat) (p : ℚ) :
    List.Sorted (· ≤ ·) ((sortByWeight rs).map Prod.fst)
    ∧ (0 ≤ p → selectRule rs p = firstBoundaryGe p ((sortByWeight rs).zip
        (accumulateFrom ((sortByWeight rs).map
          (fun r => r.1 / ((sortByWeight rs).map Prod.fst).sum)) 0)))
    ∧ (dictLookup s_to_rules S = some rs →
        stochasticStep s_to_rules rng (S :: rest) k =
          match selectRule rs (rng k) with
          | some rule => (stochasticStep s_to_rules rng rest (k + 1)).map
              (fun pr => (rule.2 ++ pr.1, pr.2))
          | none => none) := by
  refine ⟨?_, ?_, ?_⟩
  · exact List.pairwise_map.mpr (pairwise_sortByWeight rs)
  · intro hp
    exact selectRule_eq_firstBoundaryGe rs p hp
  · intro hS
    simp [stochasticStep, hS]

/-- A deterministic two-valued rng stream used in witnesses: the first call
returns 1/5, every later call returns 9/10. -/
def rngW : Nat → ℚ := fun k => if k = 0 then 1/5 else 9/10

/-- The rule set of the witness system: symbol `'A'` expands to `"BA"` or to
`"C"`, each with weight 1/2. -/
def rsW : List (ℚ × List Char) := [(1/2, ['B', 'A']), (1/2, ['C'])]

/-- The rule table of the witness system. -/
def tblW : List (Char × List (ℚ × List Char)) := [('A', rsW)]

/-- C1 witness at a concrete input: the sorted rule set is weight-ascending;
draw 1/5 selects the `"BA"` rule and draw 9/10 selects the `"C"` rule (each the
first whose cumulative boundary, 1/2 resp. 1, is ≥ the draw); and one rewriting
pass over `"AA"` with fresh per-occurrence draws 1/5 then 9/10 expands the two
occurrences of `'A'` differently within one generation. -/
theorem c1_stochastic_selection_witness :
    List.Sorted (· ≤ ·) ((sortByWeight rsW).map Prod.fst)
    ∧ selectRule rsW (1/5) = some (1/2, ['B', 'A'])
    ∧ selectRule rsW (9/10) = some (1/2, ['C'])
    ∧ stochasticStep tblW rngW ['A', 'A'] 0 = some (['B', 'A', 'C'], 2) := by
  have h := c1_stochastic_selection tblW rngW 'A' rsW ['A'] 0 (1/5)
  have h2 := h.2.1 (by norm_num)
  have h3 := h.2.2 (by simp [tblW, dictLookup])
  refine ⟨h.1, ?_, ?_, ?_⟩
  · rw [h2]
    norm_num [rsW, sortByWeight, insertByWeight, accumulateFrom, firstBoundaryGe]
  · norm_num [rsW, selectRule, sortByWeight, insertByWeight, accumulateFrom, selectLoop]
  · rw [h3]
    norm_num [rngW, rsW, tblW, selectRule, sortByWeight, insertByWeight, accumulateFrom,
      selectLoop, stochasticStep, dictLookup, show ('A' = 'B') = False by simp,
      show ('A' = 'C') = False by simp]

/-- C9: for every rule set with at least one rule and positive (exact) total
weight, and every draw `p` with `0 ≤ p < 1`, the selection loop selects some
rule — the fall-through case in which `selected_rule` stays unset (and the
subsequent destructuring would fail) is unreachable — because the last
cumulative boundary equals 1 and the comparisons are inclusive. -/
theorem c9_selection_never_falls_through {α : Type} (rs : List (ℚ × List α)) (p : ℚ)
    (hne : rs ≠ []) (htot : 0 < (rs.map Prod.fst).sum) (hp0 : 0 ≤ p) (hp1 : p < 1) :
    ((accumulateFrom ((sortByWeight rs).map
        (fun r => r.1 / ((sortByWeight rs).map Prod.fst).sum)) 0).getLast? = some 1)
    ∧ ∃ rule, selectRule rs p = some rule := by
  have hsne : sortByWeight rs ≠ [] := by
    intro hnil
    apply hne
    have hlen := length_sortByWeight rs
    rw [hnil] at hlen
    exact List.length_eq_zero.mp hlen.symm
  have hsum1 : ((sortByWeight rs).map
      (fun r => r.1 / ((sortByWeight rs).map Prod.fst).sum)).sum = 1 := by
    rw [sum_map_div, sum_sortByWeight, div_self (ne_of_gt htot)]
  constructor
  · rw [accumulateFrom_getLast (by simpa using hsne) 0, hsum1]
    norm_num
  · rw [← Option.isSome_iff_exists, selectRule_eq_firstBoundaryGe rs p hp0]
    apply firstBoundaryGe_isSome
    · simp
    · exact hsne
    · rw [hsum1]; linarith

/-- C9 witness at a concrete input: for the witness rule set (total weight 1)
and the boundary draw 1/2, the final cumulative boundary is 1 and a rule is
selected. -/
theorem c9_selection_never_falls_through_witness :
    ((accumulateFrom ((sortByWeight rsW).map
        (fun r => r.1 / ((sortByWeight rsW).map Prod.fst).sum)) 0).getLast? = some 1)
    ∧ ∃ rule, selectRule rsW (1/2) = some rule := by
  exact c9_selection_never_falls_through rsW (1/2) (by simp [rsW])
    (by norm_num [rsW]) (by norm_num) (by norm_num)

/-
The action mapper, src/ulsys/turtle/turtle.py.  A Python action mutates the
turtle in place (f: turtle -> None); it is embedded as a state transformer
τ → τ, and the in-place update loop as state threading.
-/

/-- `mapActions(symbols, actions, turtle)` from src/ulsys/turtle/turtle.py
(lines 51-67): iterate the symbol sequence in order; for each symbol present in
the action table apply the bound action to the turtle; skip symbols absent from
the table; finally return the turtle. -/
def mapActions {α τ : Type} [DecidableEq α] (symbols : List α)
    (actions : List (α × (τ → τ))) (turtle : τ) : τ :=
  match symbols with
  | [] => turtle
  | s :: rest =>
    match dictLookup actions s with
    | some f => mapActions rest actions (f turtle)
    | none => mapActions rest actions turtle

/-- Helper for C7: processing a concatenation equals processing the first part
and then the second — the sequence is consumed once, left to right. -/
theorem mapActions_append {α τ : Type} [DecidableEq α] (xs ys : List α)
    (actions : List (α × (τ → τ))) (t : τ) :
    mapActions (xs ++ ys) actions t = mapActions ys actions (mapActions xs actions t) := by
  induction xs generalizing t with
  | nil => simp [mapActions]
  | cons x xs ih =>
    cases h : dictLookup actions x with
    | some f => simp [mapActions, h, ih]
    | none => simp [mapActions, h, ih]

/-- Helper for C7: a sequence containing only unmapped symbols leaves the
turtle state entirely unchanged. -/
theorem mapActions_of_no_action {α τ : Type} [DecidableEq α] (symbols : List α)
    (actions : List (α × (τ → τ))) (t : τ)
    (h : ∀ x ∈ symbols, dictLookup actions x = none) :
    mapActions symbols actions t = t := by
  induction symbols with
  | nil => rfl
  | cons x xs ih =>
    have hx : dictLookup actions x = none := h x (List.mem_cons_self x xs)
    have hxs : ∀ s ∈ xs, dictLookup actions s = none := fun s hs => h s (List.mem_cons_of_mem x hs)
    simp [mapActions, hx, ih hxs]

/-- C7: `mapActions` iterates the symbol sequence exactly once in order
(processing a concatenation is processing the parts in sequence), applies the
bound action to the turtle for every symbol present in the action table, leaves
the turtle entirely unaffected by symbols absent from the table (raising no
error for them), and returns the turtle it threaded (the empty sequence returns
the given turtle itself). -/
theorem c7_mapActions_contract {α τ : Type} [DecidableEq α]
    (symbols xs ys : List α) (actions : List (α × (τ → τ))) (t : τ) :
    mapActions (xs ++ ys) actions t = mapActions ys actions (mapActions xs actions t)
    ∧ (∀ (s : α) (f : τ → τ) (rest : List α), dictLookup actions s = some f →
        mapActions (s :: rest) actions t = mapActions rest actions (f t))
    ∧ (∀ (s : α) (rest : List α), dictLookup actions s = none →
        mapActions (s :: rest) actions t = mapActions rest actions t)
    ∧ ((∀ x ∈ symbols, dictLookup actions x = none) → mapActions symbols actions t = t)
    ∧ mapActions [] actions t = t := by
  refine ⟨mapActions_append xs ys actions t, ?_, ?_, ?_, rfl⟩
  · intro s f rest hs
    simp [mapActions, hs]
  · intro s rest hs
    simp [mapActions, hs]
  · intro h
    exact mapActions_of_no_action symbols actions t h

/-- Action table for the C7 witness: only `'F'` is mapped; it increments a
counter standing in for the turtle state. -/
def actW : List (Char × (Nat → Nat)) := [('F', fun n => n + 1)]

/-- C7 witness at a concrete input: order of traversal over a concatenation,
application of the mapped action for `'F'`, skipping of the unmapped `'x'`, a
fully unmapped sequence leaving the state untouched, and the empty sequence
returning the given state. -/
theorem c7_mapActions_contract_witness :
    mapActions (['F'] ++ ['x', 'F']) actW 0 = mapActions ['x', 'F'] actW (mapActions ['F'] actW 0)
    ∧ mapActions ['F', 'x'] actW 0 = mapActions ['x'] actW 1
    ∧ mapActions ['x', 'F'] actW 0 = mapActions ['F'] actW 0
    ∧ mapActions ['x', 'y'] actW 0 = 0
    ∧ mapActions [] actW 0 = 0 := by
  have h := c7_mapActions_contract (α := Char) (τ := Nat) ['x', 'y'] ['F'] ['x', 'F'] actW 0
  refine ⟨h.1, ?_, ?_, ?_, h.2.2.2.2⟩
  · exact h.2.1 'F' (fun n => n + 1) ['x'] (by simp [actW, dictLookup])
  · exact h.2.2.1 'x' ['F'] (by simp [actW, dictLookup])
  · exact h.2.2.2.1 (by simp [actW, dictLookup])

/-
The concrete turtle backends: PyXTurtle (src/ulsys/turtle/pyx.py, also in
src/ulsys/turtle/turtle.py) and TikzTurtle (src/ulsys/turtle/tikz.py).
Geometry values (Python floats) are rationals; the mutable turtle objects are
records, and the raising `pop` returns `Except`.
-/

/-- Modelled from the spec: a 2D real vector with x and y components (the
`vec2` type used by the turtle backends lives in the `geom` module, which is
not among these sources; the spec describes a position as a 2D real vector). -/
structure Vec2 where
  x : ℚ
  y : ℚ
deriving DecidableEq

/-- A PyX path command recorded by PyXTurtle: `path.moveto` or `path.lineto`. -/
inductive PathCmd where
  | moveto (x y : ℚ)
  | lineto (x y : ℚ)
deriving DecidableEq

/-- The error raised by `pop()` on an empty save-stack (in Python, the
IndexError escaping from `list.pop()` on an empty list). -/
inductive TurtleError where
  | stackUnderflow
deriving DecidableEq

/-- The PyXTurtle state (pyx.py lines 11-17): cursor position and heading from
BaseTurtle, the recorded path commands, the save-stack of (position, heading)
snapshots, and the recorded circles as (x, y, radius) triples. -/
structure PyXTurtle where
  pos : Vec2
  angle : ℚ
  paths : List PathCmd
  states : List (Vec2 × ℚ)
  circles : List (ℚ × ℚ × ℚ)
deriving DecidableEq

/-- `PyXTurtle.push` (pyx.py lines 26-27): append (pos, angle) to the
save-stack. -/
def PyXTurtle.push (t : PyXTurtle) : PyXTurtle :=
  { t with states := (t.pos, t.angle) :: t.states }

/-- `PyXTurtle.pop` (pyx.py lines 32-36): `self.states.pop()` — which raises on
an empty stack — then restore position and heading and record a moveto at the
restored position. -/
def PyXTurtle.pop (t : PyXTurtle) : Except TurtleError PyXTurtle :=
  match t.states with
  | [] => Except.error TurtleError.stackUnderflow
  | (pos, angle) :: rest =>
    Except.ok
      { t with
        pos := pos
        angle := angle
        states := rest
        paths := t.paths ++ [PathCmd.moveto pos.x pos.y] }

/-- A tikz path under construction (tikz.py TikzPath): the vertex list, the
attribute dictionary, and the cycle flag. -/
structure TikzPath where
  v : List Vec2
  attribs : List (String × String)
  cyc : Bool
deriving DecidableEq

/-- The TikzTurtle state (tikz.py lines 61-66): cursor position and heading,
the save-stack of (in-progress path, position, heading) snapshots, the
accumulated picture (the objects added to TikzPicture), and the in-progress
path if any. -/
structure TikzTurtle where
  pos : Vec2
  angle : ℚ
  stack : List (Option TikzPath × Vec2 × ℚ)
  picture : List TikzPath
  path : Option TikzPath
deriving DecidableEq

/-- `TikzTurtle.push` (tikz.py lines 77-79): save (path, pos, angle) and start
with no in-progress path. -/
def TikzTurtle.push (t : TikzTurtle) : TikzTurtle :=
  { t with stack := (t.path, t.pos, t.angle) :: t.stack, path := none }

/-- `TikzTurtle.pop` (tikz.py lines 81-87): flush any in-progress path into the
picture, then `self._stack.pop()` — which raises on an empty stack — and
restore path, position and heading.  (On the underflow branch the Python object
keeps the already-flushed picture but the interpretation pass aborts; the
embedding reports the error.) -/
def TikzTurtle.pop (t : TikzTurtle) : Except TurtleError TikzTurtle :=
  let picture := match t.path with
    | some p => t.picture ++ [p]
    | none => t.picture
  match t.stack with
  | [] => Except.error TurtleError.stackUnderflow
  | (path, pos, angle) :: rest =>
    Except.ok
      { pos := pos
        angle := angle
        stack := rest
        picture := picture
        path := path }

/-- C6: for both concrete turtle backends, `pop()` with a non-empty save-stack
succeeds and restores the most recently pushed (position, heading) — in
particular an immediate `pop` after a `push` restores the pre-push cursor —
while `pop()` with an empty save-stack returns the stack-underflow error and
never silently succeeds; the error is surfaced to the caller, not recovered. -/
theorem c6_pop_contract (t1 : PyXTurtle) (t2 : TikzTurtle) (pos : Vec2) (angle : ℚ)
    (rest1 : List (Vec2 × ℚ)) (entry : Option TikzPath)
    (rest2 : List (Option TikzPath × Vec2 × ℚ)) :
    (t1.states = (pos, angle) :: rest1 →
      ∃ t', t1.pop = Except.ok t' ∧ t'.pos = pos ∧ t'.angle = angle ∧ t'.states = rest1)
    ∧ (∃ t', t1.push.pop = Except.ok t' ∧ t'.pos = t1.pos ∧ t'.angle = t1.angle
        ∧ t'.states = t1.states)
    ∧ (t1.states = [] → t1.pop = Except.error TurtleError.stackUnderflow)
    ∧ (t2.stack = (entry, pos, angle) :: rest2 →
      ∃ t', t2.pop = Except.ok t' ∧ t'.pos = pos ∧ t'.angle = angle ∧ t'.stack = rest2)
    ∧ (∃ t', t2.push.pop = Except.ok t' ∧ t'.pos = t2.pos ∧ t'.angle = t2.angle
        ∧ t'.stack = t2.stack)
    ∧ (t2.stack = [] → t2.pop = Except.error TurtleError.stackUnderflow) := by
  refine ⟨?_, ?_, ?_, ?_, ?_, ?_⟩
  · intro h
    exact ⟨{ t1 with pos := pos, angle := angle, states := rest1,
                     paths := t1.paths ++ [PathCmd.moveto pos.x pos.y] },
      by simp [PyXTurtle.pop, h], rfl, rfl, rfl⟩
  · exact ⟨{ t1 with paths := t1.paths ++ [PathCmd.moveto t1.pos.x t1.pos.y] },
      by simp [PyXTurtle.pop, PyXTurtle.push], rfl, rfl, rfl⟩
  · intro h
    simp [PyXTurtle.pop, h]
  · intro h
    exact ⟨{ pos := pos, angle := angle, stack := rest2, path := entry,
             picture := match t2.path with
               | some q => t2.picture ++ [q]
               | none => t2.picture },
      by simp [TikzTurtle.pop, h], rfl, rfl, rfl⟩
  · exact ⟨{ pos := t2.pos, angle := t2.angle, stack := t2.stack, path := t2.path,
             picture := t2.picture },
      by simp [TikzTurtle.pop, TikzTurtle.push], rfl, rfl, rfl⟩
  · intro h
    simp [TikzTurtle.pop, h]

/-- A concrete PyXTurtle for the C6 witness, with one saved state. -/
def pyxW : PyXTurtle :=
  { pos := { x := 3, y := 4 }, angle := 1, paths := [], states := [({ x := 0, y := 0 }, 2)],
    circles := [] }

/-- A concrete TikzTurtle for the C6 witness, with one saved state. -/
def tikzW : TikzTurtle :=
  { pos := { x := 3, y := 4 }, angle := 1, stack := [(none, { x := 0, y := 0 }, 2)],
    picture := [], path := none }

/-- C6 witness at concrete inputs: popping the one-entry turtles restores the
saved (position, heading); popping turtles with emptied stacks underflows. -/
theorem c6_pop_contract_witness :
    (∃ t', pyxW.pop = Except.ok t' ∧ t'.pos = { x := 0, y := 0 } ∧ t'.angle = 2
      ∧ t'.states = [])
    ∧ ({ pyxW with states := [] } : PyXTurtle).pop = Except.error TurtleError.stackUnderflow
    ∧ (∃ t', tikzW.pop = Except.ok t' ∧ t'.pos = { x := 0, y := 0 } ∧ t'.angle = 2
      ∧ t'.stack = [])
    ∧ ({ tikzW with stack := [] } : TikzTurtle).pop = Except.error TurtleError.stackUnderflow := by
  have h1 := c6_pop_contract pyxW tikzW { x := 0, y := 0 } 2 [] none []
  have h2 := c6_pop_contract ({ pyxW with states := [] }) ({ tikzW with stack := [] })
    { x := 0, y := 0 } 2 [] none []
  exact ⟨h1.1 rfl, h2.2.2.1 rfl, h1.2.2.2.1 rfl, h2.2.2.2.2.2 rfl⟩

/-
The deterministic production parser, src/ulsys/standard/standard.py (lines
65-81), string branch: `a.split(sep="->", maxsplit=1)`; fewer than two parts
is a ValueError; otherwise the rule is `(parts[0], list(parts[1]))`.
-/

/-- Python's `a.split(sep="->", maxsplit=1)`, reported as whether a separator
exists: `some (before, after)` splits at the first occurrence of `"->"` and
`none` means the string contains no `"->"` (Python then returns the one-element
list `[a]`). -/
def splitArrow : List Char → Option (List Char × List Char)
  | [] => none
  | c :: cs =>
    if c = '-' ∧ cs.head? = some '>' then some ([], cs.tail)
    else (splitArrow cs).map (fun pr => (c :: pr.1, pr.2))

/-- Whether a character list contains the separator `"->"`. -/
def containsArrow : List Char → Bool
  | [] => false
  | c :: cs => if c = '-' ∧ cs.head? = some '>' then true else containsArrow cs

/-- The ValueError raised for an unparsable rule string, carrying the offending
input. -/
inductive ProdError where
  | valueError (input : List Char)
deriving DecidableEq

/-- The string branch of `production` (standard.py lines 69-73) for one textual
input: split at the first `"->"`; with no separator raise ValueError naming the
input; otherwise the symbol is everything before the separator and each
character after it becomes one output symbol. -/
def production1 (a : List Char) : Except ProdError (List Char × List Char) :=
  match splitArrow a with
  | none => Except.error (ProdError.valueError a)
  | some pr => Except.ok pr

/-- C8 counterexample: parsing `"F ->G"` keeps the whitespace before the
separator as part of the symbol — the parsed symbol is `"F "`, not `"F"` — so
whitespace around `"->"` is not optional separator material excluded from the
symbol, contrary to the claim. -/
theorem c8_counterexample :
    production1 ['F', ' ', '-', '>', 'G'] = Except.ok (['F', ' '], ['G'])
    ∧ (['F', ' '] : List Char) ≠ ['F'] := by
  exact ⟨rfl, by decide⟩

/-- Helper for C8: splitting an input whose prefix contains no separator splits
exactly at the first `"->"`. -/
theorem splitArrow_at_first (pre post : List Char) (h : containsArrow pre = false) :
    splitArrow (pre ++ '-' :: '>' :: post) = some (pre, post) := by
  induction pre with
  | nil => simp [splitArrow]
  | cons c cs ih =>
    rw [containsArrow] at h
    by_cases hc : c = '-' ∧ cs.head? = some '>'
    · rw [if_pos hc] at h
      exact absurd h (by simp)
    · rw [if_neg hc] at h
      rw [List.cons_append, splitArrow]
      have hcond : ¬(c = '-' ∧ (cs ++ '-' :: '>' :: post).head? = some '>') := by
        intro hcon
        obtain ⟨hc1, hc2⟩ := hcon
        apply hc
        refine ⟨hc1, ?_⟩
        cases cs with
        | nil => simp at hc2
        | cons d ds => simpa using hc2
      rw [if_neg hcond, ih h]
      rfl

/-- Helper for C8: with no separator anywhere, the split fails. -/
theorem splitArrow_eq_none (s : List Char) (h : containsArrow s = false) :
    splitArrow s = none := by
  induction s with
  | nil => rfl
  | cons c cs ih =>
    rw [containsArrow] at h
    by_cases hc : c = '-' ∧ cs.head? = some '>'
    · rw [if_pos hc] at h
      exact absurd h (by simp)
    · rw [if_neg hc] at h
      rw [splitArrow, if_neg hc, ih h]
      rfl

/-- C8 amended: the deterministic production parser splits each textual rule at
the first occurrence of `"->"`: the left side — taken verbatim, whitespace
included, and of any length — becomes the symbol, each character after the
separator (verbatim, whitespace included) becomes one Symbol, and any string
lacking the `"->"` separator is rejected with a parse error (ValueError-class)
naming the input. -/
theorem c8_split_contract (s pre post : List Char) :
    (s = pre ++ '-' :: '>' :: post → containsArrow pre = false →
      production1 s = Except.ok (pre, post))
    ∧ (containsArrow s = false →
      production1 s = Except.error (ProdError.valueError s)) := by
  constructor
  · intro hs h
    rw [production1, hs, splitArrow_at_first pre post h]
  · intro h
    rw [production1, splitArrow_eq_none s h]

/-- C8 witness at concrete inputs: `"AB->CD"` parses with symbol `"AB"` and
output `['C','D']`, and `"AB"` (no separator) is rejected. -/
theorem c8_split_contract_witness :
    production1 ['A', 'B', '-', '>', 'C', 'D'] = Except.ok (['A', 'B'], ['C', 'D'])
    ∧ production1 ['A', 'B'] = Except.error (ProdError.valueError ['A', 'B']) := by
  have h := c8_split_contract ['A', 'B', '-', '>', 'C', 'D'] ['A', 'B'] ['C', 'D']
  have h2 := c8_split_contract ['A', 'B'] [] []
  exact ⟨h.1 (by decide) (by decide), h2.2 (by decide)⟩

/-
FunctionalSymbol.call_all, src/ulsys/lsys.py (lines 174-182).  A symbol that
may be callable is embedded as an optional zero-argument callback; the
generator `call_all_with_results` yields the results of the callable symbols
in order.  The body of `call_all` is `gen = cls.call_all(symbols, *args,
**kwargs); list(gen)`: it invokes call_all itself with unchanged arguments, so
the Python call recurses without a base case.  The self-call is embedded with
an explicit recursion bound (fuel); `none` means the bound was exhausted
without the call ever returning.
-/

/-- `call_all_with_results` (lsys.py lines 163-172): invoke each callable
symbol in order, yielding the results; non-callable symbols are skipped. -/
def call_all_with_results {β : Type} : List (Option (Unit → β)) → List β
  | [] => []
  | some f :: rest => f () :: call_all_with_results rest
  | none :: rest => call_all_with_results rest

/-- `call_all` (lsys.py lines 174-182) with its recursive self-call bounded by
fuel: the body evaluates `cls.call_all(symbols, *args, **kwargs)` — the same
call again — before ever reaching `list(gen)`. -/
def call_all {β : Type} : Nat → List (Option (Unit → β)) → Option Unit
  | 0, _ => none
  | fuel + 1, symbols => call_all fuel symbols

/-- C10 (code bug): `call_all` never terminates normally — for every recursion
bound and every symbol sequence it exhausts the bound without producing a
result and without invoking any symbol.  This contradicts its own docstring
("Same as call_all_with_results but evaluates generator and discards output"):
the body recurses into `call_all` itself instead of draining
`call_all_with_results`. -/
theorem c10_call_all_diverges {β : Type} :
    ∀ (fuel : Nat) (symbols : List (Option (Unit → β))),
      call_all fuel symbols = none := by
  intro fuel
  induction fuel with
  | zero => intro _; rfl
  | succ fuel ih => intro symbols; exact ih symbols

end Ulsys
